import Mathlib

/- Verification of the problematic-text span locator and highlighter of
   `utils/text_highlighter.py`.  Python strings are modelled as `List Char`;
   Python whitespace (`\s`, `str.strip`) is modelled by the six ASCII
   whitespace characters.  Dictionaries whose keys are read with `.get` are
   modelled as structures with `Option` fields.  The analyzer's per-instance
   random `unique_id` is modelled as an explicit parameter `uid`. -/

/-- Whitespace test matching Python `\s` and `str.strip` on the ASCII range:
space, tab, newline, carriage return, vertical tab, form feed. -/
def isWsC (c : Char) : Bool :=
  c == ' ' || c == '\t' || c == '\n' || c == '\r' || c == Char.ofNat 11 || c == Char.ofNat 12

/-- Remove trailing whitespace (the right half of Python `str.strip()`). -/
def dropTrailWs (cs : List Char) : List Char :=
  (cs.reverse.dropWhile isWsC).reverse

/-- Python `str.strip()`: drop leading and trailing whitespace. -/
def stripChars (cs : List Char) : List Char :=
  dropTrailWs (cs.dropWhile isWsC)

/-- Replace each maximal whitespace run by one space, i.e. Python
`re.sub(r'\s+', ' ', s)`.  The Bool flag records whether the previous
character belonged to a whitespace run that was already rewritten. -/
def collapseAux : Bool → List Char → List Char
  | _, [] => []
  | prevWs, c :: t =>
    if isWsC c then
      if prevWs then collapseAux true t else ' ' :: collapseAux true t
    else c :: collapseAux false t

def collapseRuns (cs : List Char) : List Char := collapseAux false cs

/-- `LegalTextAnalyzer._normalize_whitespace`:
`re.sub(r'\s+', ' ', text.strip())`. -/
def normalize_whitespace (cs : List Char) : List Char :=
  collapseRuns (stripChars cs)

/-- A token of the compiled search pattern.  The source builds
`re.escape(normalized_problematic).replace('\\ ', '\\s+')`, which turns every
literal space of the normalized excerpt into `\s+` and leaves every other
character as an exactly-matched literal. -/
inductive Tok where
  | lit (c : Char)
  | ws
deriving DecidableEq, Repr

def toksOf (cs : List Char) : List Tok :=
  cs.map (fun c => if c = ' ' then Tok.ws else Tok.lit c)

/-- Length of the maximal leading whitespace run of a string. -/
def wsRun : List Char → Nat
  | [] => 0
  | c :: t => if isWsC c then wsRun t + 1 else 0

/-- Match the token list against the front of `cs`, returning the number of
characters consumed.  A `ws` token (`\s+`) consumes the maximal nonempty
leading whitespace run.  Regex backtracking into a shorter run can never
change the outcome for the patterns this engine builds, because a normalized
excerpt has no adjacent whitespace, so in its pattern every `\s+` is followed
by a non-whitespace literal, which fails on every shorter run. -/
def matchToks : List Tok → List Char → Option Nat
  | [], _ => some 0
  | Tok.lit _ :: _, [] => none
  | Tok.lit c :: ts, d :: cs => if d = c then (matchToks ts cs).map (· + 1) else none
  | Tok.ws :: _, [] => none
  | Tok.ws :: ts, d :: cs =>
    if isWsC d then (matchToks ts (cs.drop (wsRun cs))).map (· + (wsRun cs + 1)) else none

/-- `re.finditer` scanning: try to match at each position left to right, emit
`(start, end)` for every match found, and continue scanning at the end of the
match (one position further after an empty match), so matches never overlap.
`skip` counts positions still covered by the previous match; `i` is the
current absolute position and `cs` the corresponding suffix of the text. -/
def scanIter (ts : List Tok) : Nat → Nat → List Char → List (Nat × Nat)
  | _ + 1, _, [] => []
  | k + 1, i, _ :: cs' => scanIter ts k (i + 1) cs'
  | 0, i, [] =>
    (match matchToks ts [] with
     | some m => [(i, i + m)]
     | none => [])
  | 0, i, c :: cs' =>
    (match matchToks ts (c :: cs') with
     | some m => (i, i + m) :: scanIter ts (m - 1) (i + 1) cs'
     | none => scanIter ts 0 (i + 1) cs')

/-- `LegalTextAnalyzer._find_text_positions`: normalize both texts, compile
the whitespace-flexible pattern from the excerpt, and return all
non-overlapping matches in left-to-right order. -/
def find_text_positions (clause_text problematic_text : List Char) : List (Nat × Nat) :=
  scanIter (toksOf (normalize_whitespace problematic_text)) 0 0
    (normalize_whitespace clause_text)

/-- The three supported severity levels (the keys of `SEVERITY_COLORS`). -/
inductive Severity where
  | low
  | medium
  | high
deriving DecidableEq, Repr

/-- Position of a severity in the list `['low', 'medium', 'high']`, as used by
`severities.index(...)` in the merge step. -/
def sevIdx : Severity → Nat
  | .low => 0
  | .medium => 1
  | .high => 2

/-- The merge rule for severities: the incoming severity replaces the current
one exactly when its index is strictly larger. -/
def sevMax (a b : Severity) : Severity :=
  if sevIdx a < sevIdx b then b else a

def lowerStr (cs : List Char) : List Char := cs.map Char.toLower

/-- `segment.get('severity', 'medium').lower()` followed by the fallback to
`'medium'` for any value that is not a `SEVERITY_COLORS` key. -/
def parseSeverity (o : Option (List Char)) : Severity :=
  let s := lowerStr (o.getD "medium".data)
  if s = "high".data then .high
  else if s = "low".data then .low
  else .medium

/-- A problematic segment dictionary.  All fields are read with `.get` in the
source, hence every field is optional. -/
structure Segment where
  problematic_text : Option (List Char)
  explanation : Option (List Char)
  severity : Option (List Char)
  legal_reference : Option (List Char)
deriving DecidableEq, Repr

/-- A located (and possibly merged) span dictionary:
`{'start': ..., 'end': ..., 'ref_id': ..., 'severity': ...}`.  The Python key
`end` is spelled `endPos`; `ref_id` is the comma-joined string the source
accumulates. -/
structure Span where
  start : Nat
  endPos : Nat
  ref_id : List Char
  severity : Severity
deriving DecidableEq, Repr

def digitChar (n : Nat) : Char := Char.ofNat (48 + n)

/-- Decimal digits of a natural number (fuel-structured so that it reduces in
the kernel); `natDigits n` equals the Python `str(n)`. -/
def natDigitsAux : Nat → Nat → List Char
  | 0, _ => []
  | fuel + 1, n =>
    if n < 10 then [digitChar n]
    else natDigitsAux fuel (n / 10) ++ [digitChar (n % 10)]

def natDigits (n : Nat) : List Char := natDigitsAux (n + 1) n

/-- `ref_id = f"ref{i+1}"` for the segment at 0-based index `i`. -/
def refId (i : Nat) : List Char := "ref".data ++ natDigits (i + 1)

/-- `leadsL a b` holds when `a` is an initial run of `b`. -/
def leadsL : List Char → List Char → Bool
  | [], _ => true
  | _ :: _, [] => false
  | a :: as_, b :: bs => a == b && leadsL as_ bs

/-- Python `a in b` on strings: `a` occurs contiguously inside `b`. -/
def inStr (a : List Char) : List Char → Bool
  | [] => leadsL a []
  | c :: t => leadsL a (c :: t) || inStr a t

/-- The span-collection loop of `highlight_problematic_texts`: for each
segment (0-based index `i`, hence `ref_id = f"ref{i+1}"`) find all positions
of its `problematic_text` and emit one raw span per occurrence, carrying the
segment's normalized severity. -/
def collectSpansFrom (nc : List Char) : Nat → List Segment → List Span
  | _, [] => []
  | i, seg :: rest =>
    ((find_text_positions nc (seg.problematic_text.getD [])).map
      (fun pr =>
        { start := pr.1, endPos := pr.2, ref_id := refId i,
          severity := parseSeverity seg.severity })) ++
    collectSpansFrom nc (i + 1) rest

def collectSpans (nc : List Char) (segs : List Segment) : List Span :=
  collectSpansFrom nc 0 segs

/-- `segments.sort(key=lambda x: x['start'])`: a stable sort by `start`.
Insertion sort is stable, and any two stable sorts under the same key agree
on every input, so this coincides with Python's Timsort. -/
def sortByStart (l : List Span) : List Span :=
  l.insertionSort (fun a b => a.start ≤ b.start)

/-- One merge step: extend the end, append the incoming `ref_id` unless the
Python substring test `segment['ref_id'] not in current['ref_id']` fails, and
keep the higher severity. -/
def mergeInto (cur s : Span) : Span :=
  { cur with
    endPos := max cur.endPos s.endPos
    ref_id :=
      if inStr s.ref_id cur.ref_id then cur.ref_id
      else cur.ref_id ++ ',' :: s.ref_id
    severity := sevMax cur.severity s.severity }

/-- The merge sweep over the sorted spans: a span starting at or before the
current region's end is merged into it, otherwise the current region is
emitted and the span seeds a new region. -/
def mergeLoop : Span → List Span → List Span
  | cur, [] => [cur]
  | cur, s :: rest =>
    if s.start ≤ cur.endPos then mergeLoop (mergeInto cur s) rest
    else cur :: mergeLoop s rest

def mergeSpans : List Span → List Span
  | [] => []
  | s :: rest => mergeLoop s rest

/-- The merged, ordered region list `merged_segments` computed by
`highlight_problematic_texts` for one clause. -/
def mergedSpans (clause_text : List Char) (segs : List Segment) : List Span :=
  mergeSpans (sortByStart (collectSpans (normalize_whitespace clause_text) segs))

/-- Python slicing `cs[a:b]` for natural indices (clamping included). -/
def pySlice (cs : List Char) (a b : Nat) : List Char := (cs.take b).drop a

/-- One run of the rendered clause: either plain text between regions or a
highlighted region carrying its severity and its comma-joined ref ids. -/
inductive Run where
  | plain (text : List Char)
  | highlighted (text : List Char) (severity : Severity) (refs : List Char)
deriving DecidableEq, Repr

def Run.text : Run → List Char
  | .plain t => t
  | .highlighted t _ _ => t

/-- The rendering loop of `highlight_problematic_texts`: before each merged
region append the plain text since `last_end`, then the highlighted text of
the region, and finally the plain remainder of the clause. -/
def buildRuns (nc : List Char) : Nat → List Span → List Run
  | lastEnd, [] => [Run.plain (pySlice nc lastEnd nc.length)]
  | lastEnd, s :: rest =>
    Run.plain (pySlice nc lastEnd s.start) ::
    Run.highlighted (pySlice nc s.start s.endPos) s.severity s.ref_id ::
    buildRuns nc s.endPos rest

def highlightRuns (clause_text : List Char) (segs : List Segment) : List Run :=
  buildRuns (normalize_whitespace clause_text) 0 (mergedSpans clause_text segs)

def runsText (rs : List Run) : List Char := (rs.map Run.text).flatten

/-- Python `s.split(',')` (note `''.split(',') == ['']`). -/
def splitComma : List Char → List (List Char)
  | [] => [[]]
  | c :: t =>
    if c = ',' then [] :: splitComma t
    else
      match splitComma t with
      | [] => [[c]]
      | g :: gs => (c :: g) :: gs

def quoteChar : Char := Char.ofNat 39

/-- `html.escape` with `quote=True`. -/
def escChar (c : Char) : List Char :=
  if c = '&' then "&amp;".data
  else if c = '<' then "&lt;".data
  else if c = '>' then "&gt;".data
  else if c = '"' then "&quot;".data
  else if c = quoteChar then "&#x27;".data
  else [c]

def escapeHtml (cs : List Char) : List Char := (cs.map escChar).flatten

/-- `SEVERITY_COLORS[sev]["bg"]`. -/
def severityBg : Severity → List Char
  | .high => "rgba(255, 0, 0, 0.15)".data
  | .medium => "rgba(255, 153, 0, 0.15)".data
  | .low => "rgba(255, 204, 0, 0.15)".data

/-- `SEVERITY_COLORS[sev]["border"]`. -/
def severityBorder : Severity → List Char
  | .high => "rgba(255, 0, 0, 0.6)".data
  | .medium => "rgba(255, 153, 0, 0.6)".data
  | .low => "rgba(255, 204, 0, 0.6)".data

/-- HTML text for one run: plain runs are escaped, highlighted runs become the
`<span ...>` element with one `<sup>` badge per ref id (badges show
`ref_id[3:]`; the onclick handler names the first ref id). -/
def renderRun (uid : List Char) : Run → List Char
  | .plain t => escapeHtml t
  | .highlighted t sev refs =>
    let refIds := splitComma refs
    let badges :=
      (refIds.map (fun rid =>
        "<sup class=\"annotation-ref-".data ++ uid ++ "\">".data ++
        rid.drop 3 ++ "</sup>".data)).flatten
    "<span class=\"highlight-".data ++ uid ++
    "\" style=\"background-color: ".data ++ severityBg sev ++
    "; border-bottom-color: ".data ++ severityBorder sev ++
    ";\" data-ref-ids=\"".data ++ refs ++
    "\" onclick=\"highlightClick_".data ++ uid ++ "(".data ++ [quoteChar] ++
    refIds.headD [] ++ [quoteChar] ++ ")\">".data ++
    escapeHtml t ++ badges ++ "</span>".data

/-- `LegalTextAnalyzer.highlight_problematic_texts`: the full HTML string the
method returns, with the analyzer's `unique_id` passed in as `uid`. -/
def highlight_problematic_texts (uid clause_text : List Char) (segs : List Segment) :
    List Char :=
  "<div class=\"legal-clause-".data ++ uid ++ "\">".data ++
  ((highlightRuns clause_text segs).map (renderRun uid)).flatten ++
  "</div>".data

/-- One entry of the annotations list built by `_generate_annotations_html`
for the segment at 0-based index `i`: its stable ref id, the 1-based issue
number, normalized severity, the escaped 50-character preview (plus a flag
for the `[...]` marker), the escaped explanation, and the legal reference. -/
structure AnnEntry where
  ref_id : List Char
  issueIndex : Nat
  severity : Severity
  preview : List Char
  truncated : Bool
  explanation : List Char
  legal_reference : Option (List Char)
deriving DecidableEq, Repr

def mkAnnEntry (i : Nat) (seg : Segment) : AnnEntry :=
  { ref_id := refId i
    issueIndex := i + 1
    severity := parseSeverity seg.severity
    preview := escapeHtml ((seg.problematic_text.getD []).take 50)
    truncated := decide (50 < (seg.problematic_text.getD []).length)
    explanation := escapeHtml (seg.explanation.getD [])
    legal_reference := seg.legal_reference }

def annEntriesFrom : Nat → List Segment → List AnnEntry
  | _, [] => []
  | i, seg :: rest => mkAnnEntry i seg :: annEntriesFrom (i + 1) rest

/-- The annotations produced by `_generate_annotations_html`: one entry per
input segment, in input order, whether or not the segment matched. -/
def annotationEntries (segs : List Segment) : List AnnEntry := annEntriesFrom 0 segs

/-- An element of the loosely-typed list the module-level wrapper accepts:
either a plain string or a segment dictionary. -/
inductive RawSeg where
  | strSeg (s : List Char)
  | dictSeg (d : Segment)
deriving DecidableEq, Repr

/-- The conversion the wrapper applies to plain-string segments:
`{'problematic_text': s, 'explanation': s, 'severity': 'medium'}`. -/
def strToSeg (s : List Char) : Segment :=
  { problematic_text := some s, explanation := some s,
    severity := some "medium".data, legal_reference := none }

def asStrSeg : RawSeg → Option Segment
  | .strSeg s => some (strToSeg s)
  | .dictSeg _ => none

def asDictSeg : RawSeg → Option Segment
  | .dictSeg d => some d
  | .strSeg _ => none

/-- Traverse a raw list with a per-element view, failing on the first element
the view rejects. -/
def optMap (f : RawSeg → Option Segment) : List RawSeg → Option (List Segment)
  | [] => some []
  | r :: rest =>
    match f r, optMap f rest with
    | some s, some ss => some (s :: ss)
    | _, _ => none

/-- The wrapper's duck-typed dispatch: a nonempty list whose first element is
a string is converted elementwise, anything else is passed through unchanged.
`none` models the Python runtime type error that a heterogeneous list causes
downstream (a dict reaching `.strip()`, or a string reaching `.get`). -/
def coerceSegments : List RawSeg → Option (List Segment)
  | [] => some []
  | RawSeg.strSeg s :: rest => optMap asStrSeg (RawSeg.strSeg s :: rest)
  | RawSeg.dictSeg d :: rest => optMap asDictSeg (RawSeg.dictSeg d :: rest)

/-- The module-level wrapper `highlight_problematic_texts` (lines 665-688):
convert string segments if the first element is a string, then run the
analyzer method. -/
def highlight_problematic_texts_wrapper (uid clause_text : List Char)
    (raw : List RawSeg) : Option (List Char) :=
  (coerceSegments raw).map (highlight_problematic_texts uid clause_text)

/-- Merge sweep instrumented with the block of input spans each region was
merged from (the seed span included); `(mergeBlocks l).map Prod.fst` is
provably `mergeSpans l`. -/
def mergeLoopB : Span → List Span → List Span → List (Span × List Span)
  | cur, blk, [] => [(cur, blk)]
  | cur, blk, s :: rest =>
    if s.start ≤ cur.endPos then mergeLoopB (mergeInto cur s) (blk ++ [s]) rest
    else (cur, blk) :: mergeLoopB s [s] rest

def mergeBlocks : List Span → List (Span × List Span)
  | [] => []
  | s :: rest => mergeLoopB s [s] rest

def mergedBlocks (clause_text : List Char) (segs : List Segment) :
    List (Span × List Span) :=
  mergeBlocks (sortByStart (collectSpans (normalize_whitespace clause_text) segs))

/-- Maximum of a list of severities under low < medium < high (with `low` as
neutral element). -/
def maxSevList (l : List Severity) : Severity := l.foldl sevMax Severity.low

example : normalize_whitespace "  The  Client\tshall \n pay ".data =
    "The Client shall pay".data := by decide

example : find_text_positions "a  b c".data "a\tb".data = [(0, 3)] := by decide

example : find_text_positions "ab".data "".data = [(0, 0), (1, 1), (2, 2)] := by decide

example : refId 9 = "ref10".data := by decide

example : inStr "ref1".data "ref10".data = true := by decide

instance : IsTotal Span (fun a b => a.start ≤ b.start) :=
  ⟨fun a b => Nat.le_total a.start b.start⟩

instance : IsTrans Span (fun a b => a.start ≤ b.start) :=
  ⟨fun _ _ _ h h' => Nat.le_trans h h'⟩

/-- The merge sweep never returns an empty list, and the first emitted region
starts where the seed span starts. -/
theorem mergeLoop_cons (l : List Span) : ∀ cur : Span,
    ∃ r t, mergeLoop cur l = r :: t ∧ r.start = cur.start := by
  induction l with
  | nil => intro cur; exact ⟨cur, [], rfl, rfl⟩
  | cons s rest ih =>
    intro cur
    by_cases h : s.start ≤ cur.endPos
    · obtain ⟨r, t, heq, hr⟩ := ih (mergeInto cur s)
      exact ⟨r, t, by simp [mergeLoop, h, heq], hr⟩
    · exact ⟨cur, mergeLoop s rest, by simp [mergeLoop, h], rfl⟩

/-- If the input spans are sorted by `start` (seed included), the merge sweep
emits regions whose adjacent pairs satisfy `endPos < start`. -/
theorem mergeLoop_chained (l : List Span) : ∀ cur : Span,
    List.Chain' (fun a b => a.start ≤ b.start) (cur :: l) →
    List.Chain' (fun a b => a.endPos < b.start) (mergeLoop cur l) := by
  induction l with
  | nil => intro cur _; simp [mergeLoop]
  | cons s rest ih =>
    intro cur hsort
    rw [List.chain'_cons] at hsort
    by_cases h : s.start ≤ cur.endPos
    · rw [show mergeLoop cur (s :: rest) = mergeLoop (mergeInto cur s) rest from by
        simp [mergeLoop, h]]
      apply ih
      rw [List.chain'_cons'] at hsort ⊢
      refine ⟨?_, hsort.2.2⟩
      intro y hy
      have : s.start ≤ y.start := hsort.2.1 y hy
      show (mergeInto cur s).start ≤ y.start
      exact Nat.le_trans hsort.1 this
    · obtain ⟨r, t, heq, hr⟩ := mergeLoop_cons rest s
      rw [show mergeLoop cur (s :: rest) = cur :: mergeLoop s rest from by
        simp [mergeLoop, h], heq, List.chain'_cons]
      constructor
      · rw [hr]; omega
      · rw [← heq]; exact ih s hsort.2

/-- The merged region list of any clause/segment input is chained:
adjacent regions satisfy `endPos < start`. -/
theorem mergedSpans_chained (clause_text : List Char) (segs : List Segment) :
    List.Chain' (fun a b => a.endPos < b.start) (mergedSpans clause_text segs) := by
  unfold mergedSpans
  have hsorted : List.Sorted (fun a b : Span => a.start ≤ b.start)
      (sortByStart (collectSpans (normalize_whitespace clause_text) segs)) :=
    List.sorted_insertionSort _ _
  cases hs : sortByStart (collectSpans (normalize_whitespace clause_text) segs) with
  | nil => simp [mergeSpans]
  | cons s rest =>
    rw [hs] at hsorted
    exact mergeLoop_chained rest s hsorted.chain'

/-- Claim C2: for every input, the merged region sequence produced by the
interval-merge step of `highlight_problematic_texts` is ordered by start and
non-overlapping: for all `i`, `region[i].end <= region[i+1].start`. -/
theorem c2_regions_non_overlapping (clause_text : List Char) (segs : List Segment)
    (i : Nat) (h : i + 1 < (mergedSpans clause_text segs).length) :
    ((mergedSpans clause_text segs).get ⟨i, Nat.lt_of_succ_lt h⟩).endPos ≤
    ((mergedSpans clause_text segs).get ⟨i + 1, h⟩).start := by
  have hchain := mergedSpans_chained clause_text segs
  have := List.chain'_iff_get.mp hchain i (by omega)
  exact Nat.le_of_lt this

def c2Clause : List Char := "ab cd".data

def c2Segs : List Segment :=
  [⟨some "ab".data, none, none, none⟩, ⟨some "cd".data, none, none, none⟩]

example : mergedSpans c2Clause c2Segs =
    [⟨0, 2, "ref1".data, .medium⟩, ⟨3, 5, "ref2".data, .medium⟩] := by decide

/-- Witness for C2 at a concrete two-region input. -/
theorem c2_witness :
    0 + 1 < (mergedSpans c2Clause c2Segs).length ∧
    ((mergedSpans c2Clause c2Segs).get ⟨0, by decide⟩).endPos ≤
    ((mergedSpans c2Clause c2Segs).get ⟨0 + 1, by decide⟩).start :=
  ⟨by decide, c2_regions_non_overlapping c2Clause c2Segs 0 (by decide)⟩

/-- Well-formedness of a span for a text of length `n`. -/
def SpanWF (n : Nat) (s : Span) : Prop := s.start ≤ s.endPos ∧ s.endPos ≤ n

theorem wsRun_le (cs : List Char) : wsRun cs ≤ cs.length := by
  induction cs with
  | nil => simp [wsRun]
  | cons c t ih =>
    by_cases h : isWsC c
    · simp [wsRun, h]; omega
    · simp [wsRun, h]

theorem matchToks_le (ts : List Tok) : ∀ cs m, matchToks ts cs = some m → m ≤ cs.length := by
  induction ts with
  | nil => intro cs m h; simp [matchToks] at h; omega
  | cons t ts ih =>
    intro cs m h
    cases t with
    | lit c =>
      cases cs with
      | nil => simp [matchToks] at h
      | cons d cs' =>
        by_cases hd : d = c
        · simp [matchToks, hd, Option.map_eq_some'] at h
          obtain ⟨m', hm', rfl⟩ := h
          have := ih cs' m' hm'
          simp; omega
        · simp [matchToks, hd] at h
    | ws =>
      cases cs with
      | nil => simp [matchToks] at h
      | cons d cs' =>
        by_cases hd : isWsC d
        · simp [matchToks, hd, Option.map_eq_some'] at h
          obtain ⟨m', hm', rfl⟩ := h
          have h1 := ih (cs'.drop (wsRun cs')) m' hm'
          have h2 := wsRun_le cs'
          simp [List.length_drop] at h1
          simp; omega
        · simp [matchToks, hd] at h

theorem scanIter_succ_nil (ts : List Tok) (k i : Nat) :
    scanIter ts (k + 1) i [] = [] := rfl

theorem scanIter_succ_cons (ts : List Tok) (k i : Nat) (c : Char) (cs' : List Char) :
    scanIter ts (k + 1) i (c :: cs') = scanIter ts k (i + 1) cs' := rfl

theorem scanIter_nil_some (ts : List Tok) (i m : Nat) (h : matchToks ts [] = some m) :
    scanIter ts 0 i [] = [(i, i + m)] := by
  unfold scanIter; rw [h]

theorem scanIter_nil_none (ts : List Tok) (i : Nat) (h : matchToks ts [] = none) :
    scanIter ts 0 i [] = [] := by
  unfold scanIter; rw [h]

theorem scanIter_cons_some (ts : List Tok) (i m : Nat) (c : Char) (cs' : List Char)
    (h : matchToks ts (c :: cs') = some m) :
    scanIter ts 0 i (c :: cs') = (i, i + m) :: scanIter ts (m - 1) (i + 1) cs' := by
  conv_lhs => unfold scanIter
  rw [h]

theorem scanIter_cons_none (ts : List Tok) (i : Nat) (c : Char) (cs' : List Char)
    (h : matchToks ts (c :: cs') = none) :
    scanIter ts 0 i (c :: cs') = scanIter ts 0 (i + 1) cs' := by
  conv_lhs => unfold scanIter
  rw [h]

theorem scanIter_mem_bounds (ts : List Tok) :
    ∀ (cs : List Char) (skip i : Nat), ∀ pr ∈ scanIter ts skip i cs,
      i ≤ pr.1 ∧ pr.1 ≤ pr.2 ∧ pr.2 ≤ i + cs.length := by
  intro cs
  induction cs with
  | nil =>
    intro skip i pr hpr
    cases skip with
    | zero =>
      cases hm : matchToks ts [] with
      | none => rw [scanIter_nil_none ts i hm] at hpr; simp at hpr
      | some m =>
        have := matchToks_le ts [] m hm
        rw [scanIter_nil_some ts i m hm] at hpr
        simp at this hpr
        subst this; subst hpr
        simp
    | succ k => rw [scanIter_succ_nil] at hpr; simp at hpr
  | cons c cs' ih =>
    intro skip i pr hpr
    cases skip with
    | zero =>
      cases hm : matchToks ts (c :: cs') with
      | none =>
        rw [scanIter_cons_none ts i c cs' hm] at hpr
        have := ih 0 (i + 1) pr hpr
        simp at this ⊢
        omega
      | some m =>
        have hle := matchToks_le ts (c :: cs') m hm
        rw [scanIter_cons_some ts i m c cs' hm] at hpr
        rcases List.mem_cons.mp hpr with rfl | hpr
        · simp at hle ⊢; omega
        · have := ih (m - 1) (i + 1) pr hpr
          simp at this ⊢
          omega
    | succ k =>
      rw [scanIter_succ_cons] at hpr
      have := ih k (i + 1) pr hpr
      simp at this ⊢
      omega

theorem find_text_positions_bounds (clause_text problematic_text : List Char) :
    ∀ pr ∈ find_text_positions clause_text problematic_text,
      pr.1 ≤ pr.2 ∧ pr.2 ≤ (normalize_whitespace clause_text).length := by
  intro pr hpr
  have := scanIter_mem_bounds (toksOf (normalize_whitespace problematic_text))
    (normalize_whitespace clause_text) 0 0 pr hpr
  omega

theorem collectSpansFrom_wf (nc : List Char) :
    ∀ (segs : List Segment) (i : Nat) (sp : Span), sp ∈ collectSpansFrom nc i segs →
      SpanWF (normalize_whitespace nc).length sp := by
  intro segs
  induction segs with
  | nil => intro i sp h; simp [collectSpansFrom] at h
  | cons seg rest ih =>
    intro i sp h
    simp only [collectSpansFrom, List.mem_append, List.mem_map] at h
    rcases h with ⟨pr, hpr, rfl⟩ | h
    · have := find_text_positions_bounds nc (seg.problematic_text.getD []) pr hpr
      exact ⟨this.1, this.2⟩
    · exact ih (i + 1) sp h

theorem mem_sortByStart {x : Span} {l : List Span} : x ∈ sortByStart l ↔ x ∈ l :=
  (List.perm_insertionSort _ l).mem_iff

theorem mergeInto_wf {n : Nat} {cur s : Span} (hc : SpanWF n cur) (hs : SpanWF n s) :
    SpanWF n (mergeInto cur s) := by
  obtain ⟨h1, h2⟩ := hc
  obtain ⟨h3, h4⟩ := hs
  constructor
  · show cur.start ≤ max cur.endPos s.endPos
    omega
  · show max cur.endPos s.endPos ≤ n
    omega

theorem mergeLoop_wf {n : Nat} (l : List Span) : ∀ cur : Span,
    SpanWF n cur → (∀ s ∈ l, SpanWF n s) →
    ∀ r ∈ mergeLoop cur l, SpanWF n r := by
  induction l with
  | nil =>
    intro cur hc _ r hr
    simp [mergeLoop] at hr
    subst hr; exact hc
  | cons s rest ih =>
    intro cur hc hl r hr
    by_cases h : s.start ≤ cur.endPos
    · rw [show mergeLoop cur (s :: rest) = mergeLoop (mergeInto cur s) rest from by
        simp [mergeLoop, h]] at hr
      exact ih (mergeInto cur s) (mergeInto_wf hc (hl s (by simp)))
        (fun x hx => hl x (by simp [hx])) r hr
    · rw [show mergeLoop cur (s :: rest) = cur :: mergeLoop s rest from by
        simp [mergeLoop, h]] at hr
      rcases List.mem_cons.mp hr with rfl | hr
      · exact hc
      · exact ih s (hl s (by simp)) (fun x hx => hl x (by simp [hx])) r hr

theorem isWsC_space : isWsC ' ' = true := by decide

/-- Skipping inside a whitespace run is the same as dropping the run. -/
theorem collapseAux_skip : ∀ t : List Char,
    collapseAux true t = collapseAux false (t.dropWhile isWsC) := by
  intro t
  induction t with
  | nil => rfl
  | cons c t' ih =>
    by_cases h : isWsC c
    · simp [collapseAux, h, List.dropWhile_cons, ih]
    · simp [collapseAux, h, List.dropWhile_cons]

/-- Collapsing whitespace runs is idempotent. -/
theorem collapseAux_idem : ∀ (t : List Char) (flag : Bool),
    collapseAux flag (collapseAux flag t) = collapseAux flag t := by
  intro t
  induction t with
  | nil => intro flag; rfl
  | cons c t' ih =>
    intro flag
    by_cases hc : isWsC c
    · cases flag with
      | true => simp [collapseAux, hc, ih]
      | false => simp [collapseAux, hc, isWsC_space, ih]
    · simp [collapseAux, hc, ih]

theorem dw_head : ∀ (l : List Char) (c : Char) (l' : List Char),
    l.dropWhile isWsC = c :: l' → isWsC c = false := by
  intro l
  induction l with
  | nil => intro c l' h; simp at h
  | cons a t ih =>
    intro c l' h
    by_cases ha : isWsC a
    · rw [List.dropWhile_cons_of_pos ha] at h
      exact ih c l' h
    · rw [List.dropWhile_cons_of_neg ha] at h
      cases h
      simpa using ha

theorem dw_self (l : List Char) (h : ∀ c ∈ l.head?, isWsC c = false) :
    l.dropWhile isWsC = l := by
  cases l with
  | nil => rfl
  | cons a t =>
    have := h a (by simp)
    simp [List.dropWhile_cons, this]

theorem collapseAux_cons_nonws (c : Char) (t : List Char) (flag : Bool)
    (h : isWsC c = false) : collapseAux flag (c :: t) = c :: collapseAux false t := by
  simp [collapseAux, h]

theorem collapseAux_ne_nil : ∀ (t : List Char) (flag : Bool) (c : Char),
    t.getLast? = some c → isWsC c = false → collapseAux flag t ≠ [] := by
  intro t
  induction t with
  | nil => intro flag c h; simp at h
  | cons a t' ih =>
    intro flag c h hc
    cases t' with
    | nil =>
      simp at h
      subst h
      simp [collapseAux_cons_nonws a [] flag hc]
    | cons b t'' =>
      rw [List.getLast?_cons_cons] at h
      by_cases ha : isWsC a
      · cases flag with
        | true =>
          rw [show collapseAux true (a :: b :: t'') = collapseAux true (b :: t'') from by
            simp [collapseAux, ha]]
          exact ih true c h hc
        | false =>
          simp [collapseAux, ha]
      · simp [collapseAux, ha]

theorem collapseAux_last : ∀ (t : List Char) (flag : Bool) (c : Char),
    t.getLast? = some c → isWsC c = false →
    ∀ d ∈ (collapseAux flag t).getLast?, isWsC d = false := by
  intro t
  induction t with
  | nil => intro flag c h; simp at h
  | cons a t' ih =>
    intro flag c h hc d hd
    cases t' with
    | nil =>
      simp at h
      subst h
      rw [collapseAux_cons_nonws a [] flag hc] at hd
      simp [collapseAux] at hd
      subst hd; exact hc
    | cons b t'' =>
      rw [List.getLast?_cons_cons] at h
      have hne : collapseAux false (b :: t'') ≠ [] := collapseAux_ne_nil _ false c h hc
      have hnet : collapseAux true (b :: t'') ≠ [] := collapseAux_ne_nil _ true c h hc
      by_cases ha : isWsC a
      · cases flag with
        | true =>
          rw [show collapseAux true (a :: b :: t'') = collapseAux true (b :: t'') from by
            simp [collapseAux, ha]] at hd
          exact ih true c h hc d hd
        | false =>
          rw [show collapseAux false (a :: b :: t'') = ' ' :: collapseAux true (b :: t'') from by
            simp [collapseAux, ha]] at hd
          obtain ⟨y, X', hX⟩ : ∃ y X', collapseAux true (b :: t'') = y :: X' := by
            cases hx : collapseAux true (b :: t'') with
            | nil => exact absurd hx hnet
            | cons y X' => exact ⟨y, X', rfl⟩
          rw [hX, List.getLast?_cons_cons] at hd
          rw [← hX] at hd
          exact ih true c h hc d hd
      · rw [collapseAux_cons_nonws a (b :: t'') flag (by simpa using ha)] at hd
        obtain ⟨y, X', hX⟩ : ∃ y X', collapseAux false (b :: t'') = y :: X' := by
          cases hx : collapseAux false (b :: t'') with
          | nil => exact absurd hx hne
          | cons y X' => exact ⟨y, X', rfl⟩
        rw [hX, List.getLast?_cons_cons] at hd
        rw [← hX] at hd
        exact ih false c h hc d hd

/-- Any list is its trailing-whitespace-dropped front plus a whitespace tail. -/
theorem dropTrailWs_decomp (v : List Char) :
    ∃ b, (∀ x ∈ b, isWsC x = true) ∧ v = dropTrailWs v ++ b := by
  refine ⟨(v.reverse.takeWhile isWsC).reverse, ?_, ?_⟩
  · intro x hx
    rw [List.mem_reverse] at hx
    exact List.mem_takeWhile_imp hx
  · conv_lhs => rw [← v.reverse_reverse, ← List.takeWhile_append_dropWhile (p := isWsC)
      (l := v.reverse)]
    rw [List.reverse_append]
    rfl

theorem strip_head : ∀ (t : List Char) (c : Char) (l' : List Char),
    stripChars t = c :: l' → isWsC c = false := by
  intro t c l' h
  obtain ⟨b, _, hb⟩ := dropTrailWs_decomp (t.dropWhile isWsC)
  unfold stripChars at h
  rw [h] at hb
  exact dw_head t c (l' ++ b) (by rw [hb]; simp)

theorem strip_last : ∀ (t : List Char) (c : Char),
    (stripChars t).getLast? = some c → isWsC c = false := by
  intro t c h
  unfold stripChars dropTrailWs at h
  rw [List.getLast?_reverse] at h
  cases hz : (t.dropWhile isWsC).reverse.dropWhile isWsC with
  | nil => rw [hz] at h; simp at h
  | cons d z' =>
    rw [hz] at h
    simp at h
    subst h
    exact dw_head _ _ z' hz

theorem dropTrailWs_self (u : List Char) (h : ∀ c ∈ u.getLast?, isWsC c = false) :
    dropTrailWs u = u := by
  unfold dropTrailWs
  rw [dw_self u.reverse (by rw [List.head?_reverse]; exact h), List.reverse_reverse]

theorem strip_self (u : List Char) (hh : ∀ c ∈ u.head?, isWsC c = false)
    (hl : ∀ c ∈ u.getLast?, isWsC c = false) : stripChars u = u := by
  unfold stripChars
  rw [dw_self u hh]
  exact dropTrailWs_self u hl

theorem normalize_head (t : List Char) :
    ∀ c ∈ (normalize_whitespace t).head?, isWsC c = false := by
  intro c hc
  unfold normalize_whitespace collapseRuns at hc
  cases hst : stripChars t with
  | nil => rw [hst] at hc; simp [collapseAux] at hc
  | cons d m' =>
    have hd : isWsC d = false := strip_head t d m' hst
    rw [hst, collapseAux_cons_nonws d m' false hd] at hc
    simp at hc
    subst hc
    exact hd

theorem normalize_last (t : List Char) :
    ∀ c ∈ (normalize_whitespace t).getLast?, isWsC c = false := by
  intro c hc
  unfold normalize_whitespace collapseRuns at hc
  cases hst : stripChars t with
  | nil => rw [hst] at hc; simp [collapseAux] at hc
  | cons d m' =>
    cases hgl : (d :: m').getLast? with
    | none => simp at hgl
    | some e =>
      have he : isWsC e = false := strip_last t e (by rw [hst]; exact hgl)
      rw [hst] at hc
      exact collapseAux_last (d :: m') false e hgl he c hc

/-- Whitespace normalization is idempotent. -/
theorem normalize_whitespace_idem (t : List Char) :
    normalize_whitespace (normalize_whitespace t) = normalize_whitespace t := by
  have h1 : stripChars (normalize_whitespace t) = normalize_whitespace t :=
    strip_self _ (normalize_head t) (normalize_last t)
  show collapseRuns (stripChars (normalize_whitespace t)) = normalize_whitespace t
  rw [h1]
  show collapseAux false (collapseAux false (stripChars t)) = normalize_whitespace t
  rw [collapseAux_idem]
  rfl

theorem drop_take_drop (u : List Char) (a b : Nat) (hab : a ≤ b) :
    (u.take b).drop a ++ u.drop b = u.drop a := by
  conv_rhs => rw [← List.take_append_drop b u]
  rw [List.drop_append_eq_append_drop]
  congr 1
  by_cases h : a ≤ (u.take b).length
  · have h0 : a - (u.take b).length = 0 := by omega
    rw [h0, List.drop_zero]
  · rw [List.length_take] at h
    have hlen : u.length ≤ b := by omega
    rw [List.drop_eq_nil_of_le hlen]
    simp

theorem pySlice_append (s : List Char) (a b c : Nat) (hab : a ≤ b) (hbc : b ≤ c) :
    pySlice s a b ++ pySlice s b c = pySlice s a c := by
  have h := drop_take_drop (s.take c) a b hab
  rw [List.take_take, Nat.min_eq_left hbc] at h
  exact h

theorem pySlice_zero_length (s : List Char) : pySlice s 0 s.length = s := by
  unfold pySlice
  rw [List.take_length, List.drop_zero]

theorem mergedSpans_wf (clause_text : List Char) (segs : List Segment) :
    ∀ r ∈ mergedSpans clause_text segs,
      SpanWF (normalize_whitespace clause_text).length r := by
  intro r hr
  unfold mergedSpans at hr
  have hwf : ∀ s ∈ sortByStart (collectSpans (normalize_whitespace clause_text) segs),
      SpanWF (normalize_whitespace clause_text).length s := by
    intro s hs
    have hmem := mem_sortByStart.mp hs
    have := collectSpansFrom_wf (normalize_whitespace clause_text) segs 0 s hmem
    rwa [normalize_whitespace_idem] at this
  cases hsort : sortByStart (collectSpans (normalize_whitespace clause_text) segs) with
  | nil => rw [hsort] at hr; simp [mergeSpans] at hr
  | cons s rest =>
    rw [hsort] at hr hwf
    exact mergeLoop_wf rest s (hwf s (by simp)) (fun x hx => hwf x (by simp [hx])) r hr

theorem buildRuns_text (nc : List Char) :
    ∀ (merged : List Span) (lastEnd : Nat),
      (∀ r ∈ merged, SpanWF nc.length r) →
      List.Chain' (fun a b => a.endPos < b.start) merged →
      (∀ r ∈ merged.head?, lastEnd ≤ r.start) →
      runsText (buildRuns nc lastEnd merged) = pySlice nc lastEnd nc.length := by
  intro merged
  induction merged with
  | nil =>
    intro lastEnd _ _ _
    simp [buildRuns, runsText, Run.text]
  | cons s rest ih =>
    intro lastEnd hwf hch hhd
    have hs : SpanWF nc.length s := hwf s (by simp)
    have hls : lastEnd ≤ s.start := hhd s (by simp)
    rw [List.chain'_cons'] at hch
    have ihres := ih s.endPos (fun r hr => hwf r (by simp [hr])) hch.2
      (fun r hr => Nat.le_of_lt (hch.1 r hr))
    show runsText (Run.plain (pySlice nc lastEnd s.start) ::
        Run.highlighted (pySlice nc s.start s.endPos) s.severity s.ref_id ::
        buildRuns nc s.endPos rest) = pySlice nc lastEnd nc.length
    simp only [runsText, List.map_cons, List.flatten_cons, Run.text] at ihres ⊢
    rw [ihres, ← List.append_assoc,
      pySlice_append nc lastEnd s.start s.endPos hls hs.1,
      pySlice_append nc lastEnd s.endPos nc.length (Nat.le_trans hls hs.1) hs.2]

/-- Claim C1: for every clause text and segment list, the rendered output
slices the normalized clause text into alternating plain and highlighted runs
(`buildRuns` interleaves them by construction), and concatenating the text
content of all runs, in order, reproduces the normalized clause text exactly:
no character is lost or duplicated. -/
theorem c1_coverage (clause_text : List Char) (segs : List Segment) :
    runsText (highlightRuns clause_text segs) = normalize_whitespace clause_text := by
  unfold highlightRuns
  rw [buildRuns_text (normalize_whitespace clause_text) (mergedSpans clause_text segs) 0
    (mergedSpans_wf clause_text segs) (mergedSpans_chained clause_text segs)
    (fun r _ => Nat.zero_le r.start), pySlice_zero_length]

theorem mergeLoopB_fst (l : List Span) : ∀ cur blk,
    (mergeLoopB cur blk l).map Prod.fst = mergeLoop cur l := by
  induction l with
  | nil => intro cur blk; simp [mergeLoopB, mergeLoop]
  | cons s rest ih =>
    intro cur blk
    by_cases h : s.start ≤ cur.endPos
    · simp [mergeLoopB, mergeLoop, h, ih]
    · simp [mergeLoopB, mergeLoop, h, ih]

theorem sevMax_low (x : Severity) : sevMax Severity.low x = x := by
  cases x <;> rfl

theorem sevIdx_le_sevMax_left (a b : Severity) : sevIdx a ≤ sevIdx (sevMax a b) := by
  cases a <;> cases b <;> decide

theorem sevIdx_le_sevMax_right (a b : Severity) : sevIdx b ≤ sevIdx (sevMax a b) := by
  cases a <;> cases b <;> decide

theorem maxSevList_append (l : List Severity) (x : Severity) :
    maxSevList (l ++ [x]) = sevMax (maxSevList l) x := by
  unfold maxSevList
  rw [List.foldl_append]
  rfl

theorem le_foldl_sevMax : ∀ (l : List Severity) (a : Severity),
    sevIdx a ≤ sevIdx (l.foldl sevMax a) := by
  intro l
  induction l with
  | nil => intro a; exact Nat.le_refl _
  | cons b t ih =>
    intro a
    exact Nat.le_trans (sevIdx_le_sevMax_left a b) (ih (sevMax a b))

theorem mem_le_foldl_sevMax : ∀ (l : List Severity) (a x : Severity), x ∈ l →
    sevIdx x ≤ sevIdx (l.foldl sevMax a) := by
  intro l
  induction l with
  | nil => intro a x hx; simp at hx
  | cons b t ih =>
    intro a x hx
    rcases List.mem_cons.mp hx with rfl | hx
    · exact Nat.le_trans (sevIdx_le_sevMax_right a x) (le_foldl_sevMax t (sevMax a x))
    · exact ih (sevMax a b) x hx

theorem mem_le_maxSevList (l : List Severity) (x : Severity) (h : x ∈ l) :
    sevIdx x ≤ sevIdx (maxSevList l) :=
  mem_le_foldl_sevMax l Severity.low x h

theorem mergeLoopB_sev (l : List Span) : ∀ (cur : Span) (blk : List Span),
    cur.severity = maxSevList (blk.map Span.severity) →
    ∀ p ∈ mergeLoopB cur blk l, p.1.severity = maxSevList (p.2.map Span.severity) := by
  induction l with
  | nil =>
    intro cur blk hinv p hp
    simp [mergeLoopB] at hp
    subst hp
    exact hinv
  | cons s rest ih =>
    intro cur blk hinv p hp
    by_cases h : s.start ≤ cur.endPos
    · rw [show mergeLoopB cur blk (s :: rest) =
          mergeLoopB (mergeInto cur s) (blk ++ [s]) rest from by simp [mergeLoopB, h]] at hp
      refine ih (mergeInto cur s) (blk ++ [s]) ?_ p hp
      show sevMax cur.severity s.severity = _
      rw [hinv, List.map_append]
      exact (maxSevList_append _ _).symm
    · rw [show mergeLoopB cur blk (s :: rest) =
          (cur, blk) :: mergeLoopB s [s] rest from by simp [mergeLoopB, h]] at hp
      rcases List.mem_cons.mp hp with rfl | hp
      · exact hinv
      · refine ih s [s] ?_ p hp
        simp [maxSevList, sevMax_low]

/-- Claim C3: every merged region's severity equals the maximum severity
(low < medium < high) over the block of match spans merged into it (the block
being computed by the instrumented sweep `mergedBlocks`, whose first
projection provably is the merge output); in particular it is never lower
than the severity of any contributing span. -/
theorem c3_severity_max (clause_text : List Char) (segs : List Segment) :
    (mergedBlocks clause_text segs).map Prod.fst = mergedSpans clause_text segs ∧
    ∀ p ∈ mergedBlocks clause_text segs,
      p.1.severity = maxSevList (p.2.map Span.severity) ∧
      ∀ s ∈ p.2, sevIdx s.severity ≤ sevIdx p.1.severity := by
  constructor
  · unfold mergedBlocks mergedSpans
    cases sortByStart (collectSpans (normalize_whitespace clause_text) segs) with
    | nil => simp [mergeBlocks, mergeSpans]
    | cons s rest => simp [mergeBlocks, mergeSpans, mergeLoopB_fst]
  · intro p hp
    unfold mergedBlocks at hp
    cases h : sortByStart (collectSpans (normalize_whitespace clause_text) segs) with
    | nil => rw [h] at hp; simp [mergeBlocks] at hp
    | cons s rest =>
      rw [h] at hp
      have hone := mergeLoopB_sev rest s [s] (by simp [maxSevList, sevMax_low]) p hp
      refine ⟨hone, ?_⟩
      intro x hx
      rw [hone]
      exact mem_le_maxSevList _ _ (List.mem_map_of_mem Span.severity hx)

def c3Clause : List Char := "abcde".data

def c3Segs : List Segment :=
  [⟨some "abc".data, none, some "low".data, none⟩,
   ⟨some "cde".data, none, some "high".data, none⟩]

def c3Pair : Span × List Span :=
  (⟨0, 5, "ref1,ref2".data, .high⟩,
   [⟨0, 3, "ref1".data, .low⟩, ⟨2, 5, "ref2".data, .high⟩])

/-- Witness for C3 at a concrete input whose two spans (severities low and
high) overlap and merge into one region of severity high. -/
theorem c3_witness :
    ((mergedBlocks c3Clause c3Segs).map Prod.fst = mergedSpans c3Clause c3Segs) ∧
    c3Pair.1.severity = maxSevList (c3Pair.2.map Span.severity) ∧
    sevIdx (⟨0, 3, "ref1".data, .low⟩ : Span).severity ≤ sevIdx c3Pair.1.severity :=
  ⟨(c3_severity_max c3Clause c3Segs).1,
   ((c3_severity_max c3Clause c3Segs).2 c3Pair (by decide)).1,
   ((c3_severity_max c3Clause c3Segs).2 c3Pair (by decide)).2 _ (by decide)⟩

theorem scanIter_empty_pattern : ∀ (cs : List Char) (i : Nat),
    scanIter ([] : List Tok) 0 i cs = (List.range' i (cs.length + 1)).map (fun j => (j, j)) := by
  intro cs
  induction cs with
  | nil =>
    intro i
    rw [scanIter_nil_some ([] : List Tok) i 0 rfl]
    simp [List.range'_succ]
  | cons c cs' ih =>
    intro i
    rw [scanIter_cons_some ([] : List Tok) i 0 c cs' rfl]
    show (i, i + 0) :: scanIter [] 0 (i + 1) cs' = _
    rw [ih (i + 1)]
    simp [List.range'_succ]

theorem matchToks_pos (ts : List Tok) (cs : List Char) (m : Nat)
    (hts : ts ≠ []) (h : matchToks ts cs = some m) : 1 ≤ m := by
  cases ts with
  | nil => exact absurd rfl hts
  | cons t ts' =>
    cases t with
    | lit c =>
      cases cs with
      | nil => simp [matchToks] at h
      | cons d cs' =>
        by_cases hd : d = c
        · simp [matchToks, hd, Option.map_eq_some'] at h
          obtain ⟨m', _, rfl⟩ := h
          omega
        · simp [matchToks, hd] at h
    | ws =>
      cases cs with
      | nil => simp [matchToks] at h
      | cons d cs' =>
        by_cases hd : isWsC d
        · simp [matchToks, hd, Option.map_eq_some'] at h
          obtain ⟨m', _, rfl⟩ := h
          omega
        · simp [matchToks, hd] at h

theorem scanIter_pos (ts : List Tok) (hts : ts ≠ []) :
    ∀ (cs : List Char) (skip i : Nat), ∀ pr ∈ scanIter ts skip i cs, pr.1 < pr.2 := by
  intro cs
  induction cs with
  | nil =>
    intro skip i pr hpr
    cases skip with
    | zero =>
      cases hm : matchToks ts [] with
      | none => rw [scanIter_nil_none ts i hm] at hpr; simp at hpr
      | some m =>
        have := matchToks_pos ts [] m hts hm
        rw [scanIter_nil_some ts i m hm] at hpr
        simp at hpr
        subst hpr
        simp; omega
    | succ k => rw [scanIter_succ_nil] at hpr; simp at hpr
  | cons c cs' ih =>
    intro skip i pr hpr
    cases skip with
    | zero =>
      cases hm : matchToks ts (c :: cs') with
      | none =>
        rw [scanIter_cons_none ts i c cs' hm] at hpr
        exact ih 0 (i + 1) pr hpr
      | some m =>
        have := matchToks_pos ts (c :: cs') m hts hm
        rw [scanIter_cons_some ts i m c cs' hm] at hpr
        rcases List.mem_cons.mp hpr with rfl | hpr
        · simp; omega
        · exact ih (m - 1) (i + 1) pr hpr
    | succ k =>
      rw [scanIter_succ_cons] at hpr
      exact ih k (i + 1) pr hpr

/-- Counterexample to claim C5 as stated: for the clause `"ab"` and the empty
`problematic_text`, the locator does not return zero matches; it returns one
zero-width match at every position, and the zero-width match `(0, 0)`
violates `start < end`. -/
theorem c5_counterexample :
    find_text_positions "ab".data "".data = [(0, 0), (1, 1), (2, 2)] ∧
    (0, 0) ∈ find_text_positions "ab".data "".data := by
  constructor
  · decide
  · decide

/-- Claim C5 as amended: a `problematic_text` that normalizes to the empty
string yields one zero-width match at every position of the normalized clause
(`len + 1` matches with `start = end`, not zero matches), still with no
error; and every match span returned for a `problematic_text` with nonempty
normalization satisfies `0 <= start < end <= len(normalized clause)`. -/
theorem c5_amended (clause_text problematic_text : List Char) :
    (normalize_whitespace problematic_text = [] →
      find_text_positions clause_text problematic_text =
        (List.range ((normalize_whitespace clause_text).length + 1)).map (fun j => (j, j))) ∧
    (normalize_whitespace problematic_text ≠ [] →
      ∀ pr ∈ find_text_positions clause_text problematic_text,
        pr.1 < pr.2 ∧ pr.2 ≤ (normalize_whitespace clause_text).length) := by
  constructor
  · intro h
    unfold find_text_positions
    rw [h]
    show scanIter [] 0 0 (normalize_whitespace clause_text) = _
    rw [scanIter_empty_pattern, List.range_eq_range']
  · intro h pr hpr
    have hts : toksOf (normalize_whitespace problematic_text) ≠ [] := by
      unfold toksOf
      simpa using h
    refine ⟨scanIter_pos _ hts _ 0 0 pr hpr, ?_⟩
    exact (find_text_positions_bounds clause_text problematic_text pr hpr).2

/-- Witness for the amended C5: the empty-normalization branch at clause
`"ab"` with excerpt `" "`, and the nonempty branch at the match `(0, 2)` of
`"ab"` in `"ab"`. -/
theorem c5_witness :
    (find_text_positions "ab".data " ".data =
      (List.range ((normalize_whitespace "ab".data).length + 1)).map (fun j => (j, j))) ∧
    ((0, 2).1 < (0, 2).2 ∧ (0, 2).2 ≤ (normalize_whitespace "ab".data).length) :=
  ⟨(c5_amended "ab".data " ".data).1 (by decide),
   (c5_amended "ab".data "ab".data).2 (by decide) (0, 2) (by decide)⟩

def c6Clause : List Char := "abcde".data

/-- Ten segments: segment 1 (`ref1`) matches `"cd"` at `(2, 4)`, segments
2..9 match nothing, segment 10 (`ref10`) matches `"abcd"` at `(0, 4)`. -/
def c6Segs : List Segment :=
  ⟨some "cd".data, none, none, none⟩ ::
  (List.replicate 8 (⟨some "q".data, none, none, none⟩ : Segment) ++
    [⟨some "abcd".data, none, none, none⟩])

/-- Evaluation for claim C6 at the failing input: the span `(2, 4)` of
segment 1 is merged into the region seeded by `ref10`'s span `(0, 4)`
(`2 <= 4`), yet the merged region's ref collection is just `"ref10"`: the
Python membership test `'ref1' not in 'ref10'` is a substring test and is
false, so `ref1` is silently dropped even though it is not a member. -/
theorem c6_refid_dropped :
    (⟨2, 4, "ref1".data, .medium⟩ : Span) ∈
      sortByStart (collectSpans (normalize_whitespace c6Clause) c6Segs) ∧
    mergedSpans c6Clause c6Segs = [⟨0, 4, "ref10".data, .medium⟩] := by
  constructor
  · decide
  · decide

/-- Replace a missing `problematic_text` by the default the code itself
substitutes via `.get('problematic_text', '')`. -/
def fillDefaults (s : Segment) : Segment :=
  { s with problematic_text := some (s.problematic_text.getD []) }

theorem collectSpansFrom_fillDefaults (nc : List Char) :
    ∀ (segs : List Segment) (i : Nat),
      collectSpansFrom nc i (segs.map fillDefaults) = collectSpansFrom nc i segs := by
  intro segs
  induction segs with
  | nil => intro i; rfl
  | cons seg rest ih =>
    intro i
    show collectSpansFrom nc i (fillDefaults seg :: rest.map fillDefaults) = _
    unfold collectSpansFrom
    rw [ih (i + 1)]
    have h1 : (fillDefaults seg).problematic_text.getD [] = seg.problematic_text.getD [] := by
      obtain ⟨pt, ex, sv, lr⟩ := seg
      cases pt <;> rfl
    have h2 : (fillDefaults seg).severity = seg.severity := rfl
    rw [h1, h2]

set_option maxRecDepth 20000 in
/-- Counterexample to claim C8 as stated: a segment missing the
`problematic_text` key does not trigger any `ValidationError`-style failure;
the engine silently substitutes the empty string and renders normally,
returning exactly the output it returns for an explicit empty string. -/
theorem c8_counterexample :
    highlight_problematic_texts "u".data "ab".data [⟨none, some "e".data, none, none⟩] =
    highlight_problematic_texts "u".data "ab".data [⟨some [], some "e".data, none, none⟩] := by
  decide

/-- Claim C8 as amended: the engine performs no structural validation; a
segment whose `problematic_text` key is missing is processed as if the key
held the empty string (silent recovery, no fail-fast error).  A non-string
clause text has no counterpart in this typed model. -/
theorem c8_amended (uid clause_text : List Char) (segs : List Segment) :
    highlight_problematic_texts uid clause_text (segs.map fillDefaults) =
    highlight_problematic_texts uid clause_text segs := by
  unfold highlight_problematic_texts highlightRuns mergedSpans collectSpans
  rw [collectSpansFrom_fillDefaults]

/-- Counterexample to claim C9 as stated: the module-level wrapper mints a
fresh random `unique_id` per call, and the returned HTML embeds it in the
class and handler names, so two invocations on the same input return
different strings whenever their ids differ (which holds with probability 1
for uuid4). -/
theorem c9_counterexample :
    highlight_problematic_texts "a".data "x".data [] ≠
    highlight_problematic_texts "b".data "x".data [] := by
  decide

/-- Claim C9 as amended: the computation is deterministic for a fixed
analyzer `unique_id`: equal inputs and equal ids give equal output.  The
nondeterminism of the module-level entry point is exactly the freshly minted
id (see the counterexample); everything else is a pure function of the
input. -/
theorem c9_amended (uid1 uid2 clause_text : List Char) (segs : List Segment)
    (h : uid1 = uid2) :
    highlight_problematic_texts uid1 clause_text segs =
    highlight_problematic_texts uid2 clause_text segs := by
  rw [h]

/-- Witness for the amended C9. -/
theorem c9_witness :
    highlight_problematic_texts "a".data "x".data [] =
    highlight_problematic_texts "a".data "x".data [] :=
  c9_amended "a".data "a".data "x".data [] rfl

theorem optMap_asStrSeg : ∀ strs : List (List Char),
    optMap asStrSeg (strs.map RawSeg.strSeg) = some (strs.map strToSeg) := by
  intro strs
  induction strs with
  | nil => rfl
  | cons s rest ih =>
    show optMap asStrSeg (RawSeg.strSeg s :: rest.map RawSeg.strSeg) = _
    unfold optMap
    rw [ih]
    rfl

theorem optMap_asDictSeg : ∀ ds : List Segment,
    optMap asDictSeg (ds.map RawSeg.dictSeg) = some ds := by
  intro ds
  induction ds with
  | nil => rfl
  | cons d rest ih =>
    show optMap asDictSeg (RawSeg.dictSeg d :: rest.map RawSeg.dictSeg) = _
    unfold optMap
    rw [ih]
    rfl

/-- Claim C10: for a nonempty all-string segment list the module-level
wrapper equals the analyzer applied to the elementwise conversion
`s ↦ {problematic_text: s, explanation: s, severity: 'medium'}`; a list whose
first element is not a string is passed through unchanged (stated for
all-dictionary lists, the only lists of that shape expressible in the typed
model; heterogeneous lists crash in Python and are `none` here). -/
theorem c10_wrapper_refinement (uid clause_text : List Char) :
    (∀ strs : List (List Char), strs ≠ [] →
      highlight_problematic_texts_wrapper uid clause_text (strs.map RawSeg.strSeg) =
        some (highlight_problematic_texts uid clause_text (strs.map strToSeg))) ∧
    (∀ ds : List Segment,
      highlight_problematic_texts_wrapper uid clause_text (ds.map RawSeg.dictSeg) =
        some (highlight_problematic_texts uid clause_text ds)) := by
  constructor
  · intro strs hne
    cases strs with
    | nil => exact absurd rfl hne
    | cons s rest =>
      unfold highlight_problematic_texts_wrapper
      rw [show coerceSegments ((s :: rest).map RawSeg.strSeg) =
          optMap asStrSeg ((s :: rest).map RawSeg.strSeg) from rfl]
      rw [optMap_asStrSeg]
      rfl
  · intro ds
    cases ds with
    | nil => rfl
    | cons d rest =>
      unfold highlight_problematic_texts_wrapper
      rw [show coerceSegments ((d :: rest).map RawSeg.dictSeg) =
          optMap asDictSeg ((d :: rest).map RawSeg.dictSeg) from rfl]
      rw [optMap_asDictSeg]
      rfl

/-- Witness for C10 at singleton inputs of each shape. -/
theorem c10_witness :
    (highlight_problematic_texts_wrapper "u".data "ab".data
        (["ab".data].map RawSeg.strSeg) =
      some (highlight_problematic_texts "u".data "ab".data (["ab".data].map strToSeg))) ∧
    (highlight_problematic_texts_wrapper "u".data "ab".data
        ([⟨some "ab".data, none, none, none⟩].map RawSeg.dictSeg) =
      some (highlight_problematic_texts "u".data "ab".data
        [⟨some "ab".data, none, none, none⟩])) :=
  ⟨(c10_wrapper_refinement "u".data "ab".data).1 ["ab".data] (by decide),
   (c10_wrapper_refinement "u".data "ab".data).2 [⟨some "ab".data, none, none, none⟩]⟩

/-- Decimal value of a digit string (left fold), used only to invert
`natDigits`. -/
def digitsVal (l : List Char) : Nat :=
  l.foldl (fun a c => 10 * a + (c.toNat - 48)) 0

theorem digitsVal_append_digit (l : List Char) (c : Char) :
    digitsVal (l ++ [c]) = 10 * digitsVal l + (c.toNat - 48) := by
  unfold digitsVal
  rw [List.foldl_append]
  rfl

theorem digitChar_toNat (n : Nat) (h : n < 10) : (digitChar n).toNat - 48 = n := by
  interval_cases n <;> decide

theorem natDigitsAux_val : ∀ (fuel n : Nat), n < fuel →
    digitsVal (natDigitsAux fuel n) = n := by
  intro fuel
  induction fuel with
  | zero => intro n h; omega
  | succ fuel ih =>
    intro n h
    unfold natDigitsAux
    by_cases h10 : n < 10
    · rw [if_pos h10]
      show digitsVal [digitChar n] = n
      unfold digitsVal
      simp [digitChar_toNat n h10]
    · rw [if_neg h10]
      rw [digitsVal_append_digit]
      have hrec : n / 10 < fuel := by omega
      rw [ih (n / 10) hrec, digitChar_toNat (n % 10) (Nat.mod_lt n (by omega))]
      omega

theorem natDigits_inj (m n : Nat) (h : natDigits m = natDigits n) : m = n := by
  have hm := natDigitsAux_val (m + 1) m (by omega)
  have hn := natDigitsAux_val (n + 1) n (by omega)
  unfold natDigits at h
  rw [h, hn] at hm
  omega

theorem refId_inj (i j : Nat) (h : refId i = refId j) : i = j := by
  unfold refId at h
  have h2 : natDigits (i + 1) = natDigits (j + 1) := by
    have := List.append_cancel_left h
    exact this
  have := natDigits_inj (i + 1) (j + 1) h2
  omega

theorem comma_not_mem_natDigitsAux : ∀ (fuel n : Nat), ',' ∉ natDigitsAux fuel n := by
  intro fuel
  induction fuel with
  | zero => intro n; simp [natDigitsAux]
  | succ fuel ih =>
    intro n
    unfold natDigitsAux
    by_cases h10 : n < 10
    · rw [if_pos h10]
      have : digitChar n ≠ ',' := by interval_cases n <;> decide
      simp [this.symm]
    · rw [if_neg h10]
      have hd : digitChar (n % 10) ≠ ',' := by
        have : n % 10 < 10 := Nat.mod_lt n (by omega)
        interval_cases h : (n % 10) <;> simp_all <;> decide
      simp [ih (n / 10), hd.symm]

theorem comma_not_mem_refId (i : Nat) : ',' ∉ refId i := by
  unfold refId natDigits
  intro hmem
  rcases List.mem_append.mp hmem with h | h
  · exact absurd h (by decide)
  · exact comma_not_mem_natDigitsAux (i + 1 + 1) (i + 1) h

theorem splitComma_cons_comma (t : List Char) :
    splitComma (',' :: t) = [] :: splitComma t := by
  conv_lhs => unfold splitComma
  rw [if_pos rfl]

theorem splitComma_cons_ne (c : Char) (t : List Char) (h : c ≠ ',') :
    splitComma (c :: t) =
      match splitComma t with
      | [] => [[c]]
      | g :: gs => (c :: g) :: gs := by
  conv_lhs => unfold splitComma
  rw [if_neg h]

theorem splitComma_ne_nil : ∀ l : List Char, splitComma l ≠ [] := by
  intro l
  induction l with
  | nil => simp [splitComma]
  | cons c t ih =>
    by_cases h : c = ','
    · subst h; rw [splitComma_cons_comma]; simp
    · rw [splitComma_cons_ne c t h]
      cases hs : splitComma t with
      | nil => exact absurd hs ih
      | cons g gs => simp

theorem splitComma_append_comma : ∀ x y : List Char,
    splitComma (x ++ ',' :: y) = splitComma x ++ splitComma y := by
  intro x y
  induction x with
  | nil =>
    show splitComma (',' :: y) = splitComma [] ++ splitComma y
    rw [splitComma_cons_comma]
    rfl
  | cons c x' ih =>
    by_cases h : c = ','
    · subst h
      show splitComma (',' :: (x' ++ ',' :: y)) = splitComma (',' :: x') ++ splitComma y
      rw [splitComma_cons_comma, splitComma_cons_comma, ih]
      rfl
    · show splitComma (c :: (x' ++ ',' :: y)) = splitComma (c :: x') ++ splitComma y
      rw [splitComma_cons_ne c _ h, splitComma_cons_ne c x' h, ih]
      cases hs : splitComma x' with
      | nil => exact absurd hs (splitComma_ne_nil x')
      | cons g gs => simp

theorem splitComma_noComma : ∀ l : List Char, ',' ∉ l → splitComma l = [l] := by
  intro l
  induction l with
  | nil => intro _; rfl
  | cons c t ih =>
    intro h
    have hc : c ≠ ',' := fun hx => h (by simp [hx])
    have ht : ',' ∉ t := fun hx => h (by simp [hx])
    rw [splitComma_cons_ne c t hc, ih ht]

theorem splitComma_refId (i : Nat) : splitComma (refId i) = [refId i] :=
  splitComma_noComma (refId i) (comma_not_mem_refId i)

/-- Every group of the comma-split of `r` is the ref id of some segment index
below `n`. -/
def RefsFrom (n : Nat) (r : List Char) : Prop :=
  ∀ rid ∈ splitComma r, ∃ i, i < n ∧ rid = refId i

theorem singleRef_RefsFrom {n : Nat} {r : List Char}
    (h : ∃ i, i < n ∧ r = refId i) : RefsFrom n r := by
  obtain ⟨i, hi, rfl⟩ := h
  intro rid hrid
  rw [splitComma_refId] at hrid
  simp at hrid
  exact ⟨i, hi, hrid⟩

theorem collectSpansFrom_refs (nc : List Char) :
    ∀ (segs : List Segment) (i : Nat) (sp : Span), sp ∈ collectSpansFrom nc i segs →
      ∃ j, i ≤ j ∧ j < i + segs.length ∧ sp.ref_id = refId j := by
  intro segs
  induction segs with
  | nil => intro i sp h; simp [collectSpansFrom] at h
  | cons seg rest ih =>
    intro i sp h
    simp only [collectSpansFrom, List.mem_append, List.mem_map] at h
    rcases h with ⟨pr, _, rfl⟩ | h
    · exact ⟨i, Nat.le_refl i, by simp, rfl⟩
    · obtain ⟨j, hj1, hj2, hj3⟩ := ih (i + 1) sp h
      exact ⟨j, by omega, by simp at hj2 ⊢; omega, hj3⟩

theorem mergeInto_refs {n : Nat} {cur s : Span} (hc : RefsFrom n cur.ref_id)
    (hs : ∃ i, i < n ∧ s.ref_id = refId i) : RefsFrom n (mergeInto cur s).ref_id := by
  obtain ⟨i, hi, href⟩ := hs
  show RefsFrom n (if inStr s.ref_id cur.ref_id then cur.ref_id
    else cur.ref_id ++ ',' :: s.ref_id)
  cases h : inStr s.ref_id cur.ref_id with
  | true => rw [if_pos rfl]; exact hc
  | false =>
    rw [if_neg (by simp)]
    intro rid hrid
    rw [splitComma_append_comma] at hrid
    rcases List.mem_append.mp hrid with hmem | hmem
    · exact hc rid hmem
    · rw [href, splitComma_refId] at hmem
      simp at hmem
      exact ⟨i, hi, hmem⟩

theorem mergeLoop_refs {n : Nat} (l : List Span) : ∀ cur : Span,
    RefsFrom n cur.ref_id → (∀ s ∈ l, ∃ i, i < n ∧ s.ref_id = refId i) →
    ∀ r ∈ mergeLoop cur l, RefsFrom n r.ref_id := by
  induction l with
  | nil =>
    intro cur hc _ r hr
    simp [mergeLoop] at hr
    subst hr; exact hc
  | cons s rest ih =>
    intro cur hc hl r hr
    by_cases h : s.start ≤ cur.endPos
    · rw [show mergeLoop cur (s :: rest) = mergeLoop (mergeInto cur s) rest from by
        simp [mergeLoop, h]] at hr
      exact ih (mergeInto cur s) (mergeInto_refs hc (hl s (by simp)))
        (fun x hx => hl x (by simp [hx])) r hr
    · rw [show mergeLoop cur (s :: rest) = cur :: mergeLoop s rest from by
        simp [mergeLoop, h]] at hr
      rcases List.mem_cons.mp hr with rfl | hr
      · exact hc
      · exact ih s (singleRef_RefsFrom (hl s (by simp)))
          (fun x hx => hl x (by simp [hx])) r hr

theorem mergedSpans_refs (clause_text : List Char) (segs : List Segment) :
    ∀ r ∈ mergedSpans clause_text segs, RefsFrom segs.length r.ref_id := by
  intro r hr
  unfold mergedSpans at hr
  have hall : ∀ s ∈ sortByStart (collectSpans (normalize_whitespace clause_text) segs),
      ∃ i, i < segs.length ∧ s.ref_id = refId i := by
    intro s hs
    obtain ⟨j, _, hj2, hj3⟩ :=
      collectSpansFrom_refs (normalize_whitespace clause_text) segs 0 s
        (mem_sortByStart.mp hs)
    exact ⟨j, by omega, hj3⟩
  cases hsort : sortByStart (collectSpans (normalize_whitespace clause_text) segs) with
  | nil => rw [hsort] at hr; simp [mergeSpans] at hr
  | cons s rest =>
    rw [hsort] at hr hall
    exact mergeLoop_refs rest s (singleRef_RefsFrom (hall s (by simp)))
      (fun x hx => hall x (by simp [hx])) r hr

theorem annEntriesFrom_length : ∀ (segs : List Segment) (i : Nat),
    (annEntriesFrom i segs).length = segs.length := by
  intro segs
  induction segs with
  | nil => intro i; rfl
  | cons seg rest ih => intro i; simp [annEntriesFrom, ih]

theorem annEntriesFrom_getElem? : ∀ (segs : List Segment) (i k : Nat) (seg : Segment),
    segs[k]? = some seg → (annEntriesFrom i segs)[k]? = some (mkAnnEntry (i + k) seg) := by
  intro segs
  induction segs with
  | nil => intro i k seg h; simp at h
  | cons s rest ih =>
    intro i k seg h
    cases k with
    | zero =>
      simp at h
      subst h
      simp [annEntriesFrom]
    | succ k' =>
      simp at h
      have := ih (i + 1) k' seg h
      show (mkAnnEntry i s :: annEntriesFrom (i + 1) rest)[k' + 1]? = _
      simpa [Nat.add_assoc, Nat.add_comm 1 k'] using this

theorem annEntriesFrom_countP_lt : ∀ (segs : List Segment) (i j : Nat), j < i →
    (annEntriesFrom i segs).countP (fun a => a.ref_id == refId j) = 0 := by
  intro segs
  induction segs with
  | nil => intro i j _; rfl
  | cons seg rest ih =>
    intro i j hj
    show List.countP _ (mkAnnEntry i seg :: annEntriesFrom (i + 1) rest) = 0
    rw [List.countP_cons]
    have hne : ((mkAnnEntry i seg).ref_id == refId j) = false := by
      simp only [mkAnnEntry]
      rw [beq_eq_false_iff_ne]
      intro hx
      have := refId_inj i j hx
      omega
    rw [ih (i + 1) j (by omega)]
    simp [hne]

theorem annEntriesFrom_countP : ∀ (segs : List Segment) (i j : Nat),
    i ≤ j → j < i + segs.length →
    (annEntriesFrom i segs).countP (fun a => a.ref_id == refId j) = 1 := by
  intro segs
  induction segs with
  | nil => intro i j h1 h2; simp at h2; omega
  | cons seg rest ih =>
    intro i j h1 h2
    show List.countP _ (mkAnnEntry i seg :: annEntriesFrom (i + 1) rest) = 1
    rw [List.countP_cons]
    by_cases hij : j = i
    · subst hij
      have heq : ((mkAnnEntry j seg).ref_id == refId j) = true := by
        simp [mkAnnEntry]
      rw [annEntriesFrom_countP_lt rest (j + 1) j (by omega)]
      simp [heq]
    · have hne : ((mkAnnEntry i seg).ref_id == refId j) = false := by
        simp only [mkAnnEntry]
        rw [beq_eq_false_iff_ne]
        intro hx
        exact hij (refId_inj i j hx).symm
      rw [ih (i + 1) j (by omega) (by simp at h2 ⊢; omega)]
      simp [hne]

/-- Claim C7: the annotations output has exactly one entry per input segment,
in original input order (entry `k` is built from segment `k` and carries
`ref_id = refId k`), including segments with zero matches, and every ref id
attached to any merged region corresponds to exactly one annotation entry. -/
theorem c7_annotations_complete (clause_text : List Char) (segs : List Segment) :
    (annotationEntries segs).length = segs.length ∧
    (∀ (k : Nat) (seg : Segment), segs[k]? = some seg →
      (annotationEntries segs)[k]? = some (mkAnnEntry k seg)) ∧
    ∀ r ∈ mergedSpans clause_text segs, ∀ rid ∈ splitComma r.ref_id,
      (annotationEntries segs).countP (fun a => a.ref_id == rid) = 1 := by
  refine ⟨annEntriesFrom_length segs 0, ?_, ?_⟩
  · intro k seg h
    have := annEntriesFrom_getElem? segs 0 k seg h
    simpa using this
  · intro r hr rid hrid
    obtain ⟨j, hj, rfl⟩ := mergedSpans_refs clause_text segs r hr rid hrid
    exact annEntriesFrom_countP segs 0 j (Nat.zero_le j) (by omega)

def c7Clause : List Char := "abc".data

def c7Segs : List Segment :=
  [⟨some "ab".data, none, none, none⟩, ⟨some "bc".data, none, none, none⟩]

/-- Witness for C7 at a concrete input whose two spans merge into one region
carrying `"ref1,ref2"`. -/
theorem c7_witness :
    (annotationEntries c7Segs).length = c7Segs.length ∧
    (annotationEntries c7Segs)[0]? =
      some (mkAnnEntry 0 ⟨some "ab".data, none, none, none⟩) ∧
    (annotationEntries c7Segs).countP (fun a => a.ref_id == "ref2".data) = 1 :=
  ⟨(c7_annotations_complete c7Clause c7Segs).1,
   (c7_annotations_complete c7Clause c7Segs).2.1 0 ⟨some "ab".data, none, none, none⟩
     (by decide),
   (c7_annotations_complete c7Clause c7Segs).2.2 ⟨0, 3, "ref1,ref2".data, .medium⟩
     (by decide) "ref2".data (by decide)⟩

theorem collapseAux_true_allWs : ∀ a : List Char, (∀ x ∈ a, isWsC x = true) →
    collapseAux true a = [] := by
  intro a
  induction a with
  | nil => intro _; rfl
  | cons x a' ih =>
    intro h
    have hx := h x (by simp)
    simp [collapseAux, hx]
    exact ih (fun y hy => h y (by simp [hy]))

theorem collapseAux_false_allWs : ∀ a : List Char, a ≠ [] → (∀ x ∈ a, isWsC x = true) →
    collapseAux false a = [' '] := by
  intro a
  cases a with
  | nil => intro h; exact absurd rfl h
  | cons x a' =>
    intro _ h
    have hx := h x (by simp)
    simp [collapseAux, hx]
    exact collapseAux_true_allWs a' (fun y hy => h y (by simp [hy]))

theorem dropWhile_allWs_append : ∀ (a z : List Char), (∀ x ∈ a, isWsC x = true) →
    (a ++ z).dropWhile isWsC = z.dropWhile isWsC := by
  intro a z
  induction a with
  | nil => intro _; rfl
  | cons x a' ih =>
    intro h
    have hx := h x (by simp)
    show ((x :: (a' ++ z)).dropWhile isWsC) = _
    rw [List.dropWhile_cons_of_pos hx]
    exact ih (fun y hy => h y (by simp [hy]))

/-- Collapsing a leading whitespace run followed by non-whitespace text. -/
theorem collapseAux_front (a z : List Char) (ha : ∀ x ∈ a, isWsC x = true)
    (hz : ∀ c ∈ z.head?, isWsC c = false) :
    collapseAux false (a ++ z) =
      (if a = [] then ([] : List Char) else [' ']) ++ collapseAux false z := by
  cases a with
  | nil => simp
  | cons x a' =>
    have hx := ha x (by simp)
    rw [if_neg (by simp)]
    show collapseAux false (x :: (a' ++ z)) = ' ' :: collapseAux false z
    rw [show collapseAux false (x :: (a' ++ z)) = ' ' :: collapseAux true (a' ++ z) from by
      simp [collapseAux, hx]]
    rw [collapseAux_skip, dropWhile_allWs_append a' z (fun y hy => ha y (by simp [hy])),
      dw_self z hz]

/-- Collapsing text ending in non-whitespace followed by a trailing
whitespace run. -/
theorem collapseAux_back : ∀ (m : List Char), m ≠ [] →
    (∀ c ∈ m.getLast?, isWsC c = false) →
    ∀ (b : List Char) (flag : Bool), (∀ x ∈ b, isWsC x = true) →
    collapseAux flag (m ++ b) =
      collapseAux flag m ++ (if b = [] then ([] : List Char) else [' ']) := by
  intro m
  induction m with
  | nil => intro h; exact absurd rfl h
  | cons c m' ih =>
    intro _ hlast b flag hb
    cases m' with
    | nil =>
      have hc : isWsC c = false := hlast c (by simp)
      show collapseAux flag (c :: b) = collapseAux flag [c] ++ _
      rw [collapseAux_cons_nonws c b flag hc, collapseAux_cons_nonws c [] flag hc]
      cases b with
      | nil => simp [collapseAux]
      | cons y b' =>
        rw [if_neg (by simp)]
        show c :: collapseAux false (y :: b') = [c] ++ [' ']
        rw [collapseAux_false_allWs (y :: b') (by simp) hb]
        rfl
    | cons d m'' =>
      have hlast' : ∀ x ∈ (d :: m'').getLast?, isWsC x = false := by
        intro x hx
        exact hlast x (by rw [List.getLast?_cons_cons]; exact hx)
      by_cases hc : isWsC c
      · cases flag with
        | true =>
          show collapseAux true (c :: ((d :: m'') ++ b)) = collapseAux true (c :: d :: m'') ++ _
          rw [show collapseAux true (c :: ((d :: m'') ++ b)) =
              collapseAux true ((d :: m'') ++ b) from by simp [collapseAux, hc]]
          rw [show collapseAux true (c :: d :: m'') = collapseAux true (d :: m'') from by
            simp [collapseAux, hc]]
          exact ih (by simp) hlast' b true hb
        | false =>
          show collapseAux false (c :: ((d :: m'') ++ b)) = collapseAux false (c :: d :: m'') ++ _
          rw [show collapseAux false (c :: ((d :: m'') ++ b)) =
              ' ' :: collapseAux true ((d :: m'') ++ b) from by simp [collapseAux, hc]]
          rw [show collapseAux false (c :: d :: m'') = ' ' :: collapseAux true (d :: m'') from by
            simp [collapseAux, hc]]
          rw [ih (by simp) hlast' b true hb]
          rfl
      · rw [show (c :: d :: m'') ++ b = c :: ((d :: m'') ++ b) from rfl]
        rw [collapseAux_cons_nonws c ((d :: m'') ++ b) flag (by simpa using hc),
          collapseAux_cons_nonws c (d :: m'') flag (by simpa using hc)]
        rw [ih (by simp) hlast' b false hb]
        rfl

/-- Collapsing a text equals an optional boundary space, the fully normalized
text, and an optional boundary space. -/
theorem collapse_split (t : List Char) :
    ∃ w1 w2 : List Char, (w1 = [] ∨ w1 = [' ']) ∧ (w2 = [] ∨ w2 = [' ']) ∧
      collapseRuns t = w1 ++ normalize_whitespace t ++ w2 := by
  have hT : t = t.takeWhile isWsC ++ t.dropWhile isWsC :=
    (List.takeWhile_append_dropWhile (p := isWsC) (l := t)).symm
  have hA : ∀ x ∈ t.takeWhile isWsC, isWsC x = true := fun x hx => List.mem_takeWhile_imp hx
  cases hz : t.dropWhile isWsC with
  | nil =>
    have hstrip : stripChars t = [] := by
      unfold stripChars
      rw [hz]
      rfl
    have hnorm : normalize_whitespace t = [] := by
      unfold normalize_whitespace collapseRuns
      rw [hstrip]
      rfl
    cases ha : t.takeWhile isWsC with
    | nil =>
      refine ⟨[], [], Or.inl rfl, Or.inl rfl, ?_⟩
      have ht0 : t = [] := by rw [hT, ha, hz]; rfl
      rw [hnorm, ht0]
      rfl
    | cons x a' =>
      refine ⟨[' '], [], Or.inr rfl, Or.inl rfl, ?_⟩
      rw [hnorm]
      show collapseRuns t = [' ']
      unfold collapseRuns
      conv_lhs => rw [hT, hz, ha]
      rw [List.append_nil]
      exact collapseAux_false_allWs (x :: a') (by simp) (by rw [← ha]; exact hA)
  | cons d z0 =>
    obtain ⟨b, hb, hzdecomp⟩ := dropTrailWs_decomp (t.dropWhile isWsC)
    have hm : stripChars t = dropTrailWs (t.dropWhile isWsC) := rfl
    have hmne : stripChars t ≠ [] := by
      intro hmnil
      rw [hm] at hmnil
      rw [hmnil] at hzdecomp
      rw [hz] at hzdecomp
      simp at hzdecomp
      have hd : isWsC d = false := dw_head t d z0 hz
      have hdb : d ∈ b := by rw [← hzdecomp]; simp
      rw [hb d hdb] at hd
      simp at hd
    have hmlast : ∀ c ∈ (stripChars t).getLast?, isWsC c = false := by
      intro c hc
      exact strip_last t c hc
    have hmhead : ∀ c ∈ (stripChars t).head?, isWsC c = false := by
      intro c hc
      cases hms : stripChars t with
      | nil => rw [hms] at hc; simp at hc
      | cons e m' =>
        rw [hms] at hc
        simp at hc
        rw [← hc]
        exact strip_head t e m' hms
    refine ⟨if t.takeWhile isWsC = [] then [] else [' '],
            if b = [] then [] else [' '], ?_, ?_, ?_⟩
    · by_cases h : t.takeWhile isWsC = [] <;> simp [h]
    · by_cases h : b = [] <;> simp [h]
    · unfold collapseRuns
      conv_lhs => rw [hT, hzdecomp, ← hm]
      rw [← List.append_assoc]
      rw [show t.takeWhile isWsC ++ stripChars t ++ b =
          t.takeWhile isWsC ++ (stripChars t ++ b) from by rw [List.append_assoc]]
      rw [collapseAux_front (t.takeWhile isWsC) (stripChars t ++ b) hA]
      · rw [collapseAux_back (stripChars t) hmne hmlast b false hb]
        rw [List.append_assoc]
        rfl
      · intro c hc
        cases hms : stripChars t with
        | nil => exact absurd hms hmne
        | cons e m' =>
          rw [hms] at hc
          simp at hc
          rw [← hc]
          exact strip_head t e m' hms

/-- A normalized excerpt never has a space at the end and never a whitespace
character right after a space; this is the shape that makes `\s+` consume
exactly the matched run. -/
def okSpaces : List Char → Bool
  | [] => true
  | [c] => !(c == ' ')
  | c :: d :: t => if c = ' ' then !(isWsC d) && okSpaces (d :: t) else okSpaces (d :: t)

theorem okSpaces_cons_nonspace (c : Char) (X : List Char) (hcs : c ≠ ' ') :
    okSpaces (c :: X) = okSpaces X := by
  cases X with
  | nil => simp [okSpaces, hcs]
  | cons y ys => simp [okSpaces, hcs]

theorem length_dropWhile_le (p : Char → Bool) : ∀ l : List Char,
    (l.dropWhile p).length ≤ l.length := by
  intro l
  induction l with
  | nil => simp
  | cons c t ih =>
    by_cases h : p c
    · rw [List.dropWhile_cons_of_pos h]
      exact Nat.le_trans ih (by simp)
    · rw [List.dropWhile_cons_of_neg h]

theorem okSpaces_collapse : ∀ (N : Nat) (t : List Char), t.length ≤ N →
    (∀ c ∈ t.getLast?, isWsC c = false) → okSpaces (collapseAux false t) = true := by
  intro N
  induction N with
  | zero =>
    intro t hlen _
    have ht : t = [] := List.length_eq_zero.mp (by omega)
    subst ht
    rfl
  | succ N ih =>
    intro t hlen hlast
    cases t with
    | nil => rfl
    | cons c t' =>
      by_cases hc : isWsC c
      · cases t' with
        | nil =>
          have := hlast c (by simp)
          simp [this] at hc
        | cons d t'' =>
          have hlast' : ∀ x ∈ (d :: t'').getLast?, isWsC x = false := by
            intro x hx
            exact hlast x (by rw [List.getLast?_cons_cons]; exact hx)
          rw [show collapseAux false (c :: d :: t'') = ' ' :: collapseAux true (d :: t'')
            from by simp [collapseAux, hc]]
          rw [collapseAux_skip]
          have hune : (d :: t'').dropWhile isWsC ≠ [] := by
            intro hnil
            rw [List.dropWhile_eq_nil_iff] at hnil
            have hws := hnil _ (List.getLast_mem (l := d :: t'') (by simp))
            have hnws := hlast' ((d :: t'').getLast (by simp))
              (by rw [List.getLast?_eq_getLast (d :: t'') (by simp)]; rfl)
            rw [hnws] at hws
            simp at hws
          obtain ⟨e, u', hu'⟩ : ∃ e u', (d :: t'').dropWhile isWsC = e :: u' := by
            cases hcu : (d :: t'').dropWhile isWsC with
            | nil => exact absurd hcu hune
            | cons e u' => exact ⟨e, u', rfl⟩
          have hee : isWsC e = false := dw_head (d :: t'') e u' hu'
          have hulast : ∀ x ∈ ((d :: t'').dropWhile isWsC).getLast?, isWsC x = false := by
            intro x hx
            apply hlast'
            have hdecomp : (d :: t'') =
                (d :: t'').takeWhile isWsC ++ (d :: t'').dropWhile isWsC :=
              (List.takeWhile_append_dropWhile (p := isWsC) (l := d :: t'')).symm
            rw [hdecomp, List.getLast?_append_of_ne_nil _ hune]
            exact hx
          have hlen' : ((d :: t'').dropWhile isWsC).length ≤ N := by
            have h1 := length_dropWhile_le isWsC (d :: t'')
            simp at hlen h1 ⊢
            omega
          have hok := ih ((d :: t'').dropWhile isWsC) hlen' hulast
          rw [hu', collapseAux_cons_nonws e u' false hee] at hok ⊢
          show okSpaces (' ' :: e :: collapseAux false u') = true
          have hde : isWsC e = false := hee
          simp [okSpaces, hde, hok]
      · rw [collapseAux_cons_nonws c t' false (by simpa using hc)]
        have hcs : c ≠ ' ' := by
          intro hcc
          subst hcc
          simp [isWsC_space] at hc
        rw [okSpaces_cons_nonspace c _ hcs]
        cases t' with
        | nil => rfl
        | cons d t'' =>
          have hlast' : ∀ x ∈ (d :: t'').getLast?, isWsC x = false := by
            intro x hx
            exact hlast x (by rw [List.getLast?_cons_cons]; exact hx)
          exact ih (d :: t'') (by simp at hlen ⊢; omega) hlast'

theorem okSpaces_normalize (x : List Char) : okSpaces (normalize_whitespace x) = true := by
  show okSpaces (collapseAux false (stripChars x)) = true
  exact okSpaces_collapse (stripChars x).length (stripChars x) (Nat.le_refl _)
    (fun c hc => strip_last x c hc)

/-- A normalized excerpt matches itself (followed by anything), consuming
exactly its own length. -/
theorem matchToks_self : ∀ (np post : List Char), okSpaces np = true →
    matchToks (toksOf np) (np ++ post) = some np.length := by
  intro np
  induction np with
  | nil => intro post _; rfl
  | cons c np' ih =>
    intro post hok
    by_cases hc : c = ' '
    · subst hc
      cases np' with
      | nil => simp [okSpaces] at hok
      | cons d t =>
        have hok2 : isWsC d = false ∧ okSpaces (d :: t) = true := by
          have heq : okSpaces (' ' :: d :: t) = (!(isWsC d) && okSpaces (d :: t)) := by
            simp [okSpaces]
          rw [heq, Bool.and_eq_true, Bool.not_eq_true'] at hok
          exact hok
        have htoks : toksOf (' ' :: d :: t) = Tok.ws :: toksOf (d :: t) := by
          simp [toksOf]
        rw [htoks]
        show matchToks (Tok.ws :: toksOf (d :: t)) (' ' :: ((d :: t) ++ post)) = _
        rw [show matchToks (Tok.ws :: toksOf (d :: t)) (' ' :: ((d :: t) ++ post)) =
            (matchToks (toksOf (d :: t)) (((d :: t) ++ post).drop
              (wsRun ((d :: t) ++ post)))).map
              (· + (wsRun ((d :: t) ++ post) + 1)) from by
          simp [matchToks, isWsC_space]]
        have hws0 : wsRun ((d :: t) ++ post) = 0 := by
          show wsRun (d :: (t ++ post)) = 0
          simp [wsRun, hok2.1]
        rw [hws0, List.drop_zero, ih post hok2.2]
        simp
    · have htoks : toksOf (c :: np') = Tok.lit c :: toksOf np' := by
        simp [toksOf, hc]
      rw [htoks]
      show matchToks (Tok.lit c :: toksOf np') (c :: (np' ++ post)) = _
      rw [show matchToks (Tok.lit c :: toksOf np') (c :: (np' ++ post)) =
          (matchToks (toksOf np') (np' ++ post)).map (· + 1) from by
        simp [matchToks]]
      have hok' : okSpaces np' = true := by
        rwa [okSpaces_cons_nonspace c np' hc] at hok
      rw [ih post hok']
      simp

/-- If the pattern matches at any position, the scan returns at least one
match. -/
theorem scanIter_ne_nil (ts : List Tok) : ∀ (cs : List Char) (i k m : Nat),
    matchToks ts (cs.drop k) = some m → scanIter ts 0 i cs ≠ [] := by
  intro cs
  induction cs with
  | nil =>
    intro i k m h
    rw [List.drop_nil] at h
    rw [scanIter_nil_some ts i m h]
    simp
  | cons c cs' ih =>
    intro i k m h
    cases hm : matchToks ts (c :: cs') with
    | some m0 =>
      rw [scanIter_cons_some ts i m0 c cs' hm]
      simp
    | none =>
      cases k with
      | zero =>
        rw [List.drop_zero] at h
        rw [hm] at h
        simp at h
      | succ k' =>
        rw [scanIter_cons_none ts i c cs' hm]
        exact ih (i + 1) k' m (by rw [← h]; rfl)

theorem occurs_peel_front (p s : List Char) (hne : p ≠ [])
    (hh : ∀ c ∈ p.head?, isWsC c = false)
    (h : ∃ pre post, ' ' :: s = pre ++ p ++ post) :
    ∃ pre post, s = pre ++ p ++ post := by
  obtain ⟨pre, post, heq⟩ := h
  cases pre with
  | nil =>
    simp at heq
    cases p with
    | nil => exact absurd rfl hne
    | cons c p' =>
      rw [List.cons_append] at heq
      injection heq with h1 _
      have hcw := hh c (by simp)
      rw [← h1] at hcw
      rw [isWsC_space] at hcw
      simp at hcw
  | cons x pre' =>
    rw [List.cons_append, List.cons_append] at heq
    injection heq with _ h2
    exact ⟨pre', post, h2⟩

theorem occurs_reverse {p s : List Char}
    (h : ∃ pre post, s = pre ++ p ++ post) :
    ∃ pre post, s.reverse = pre ++ p.reverse ++ post := by
  obtain ⟨pre, post, heq⟩ := h
  refine ⟨post.reverse, pre.reverse, ?_⟩
  rw [heq]
  simp [List.reverse_append, List.append_assoc]

theorem occurs_peel_back (p s : List Char) (hne : p ≠ [])
    (hl : ∀ c ∈ p.getLast?, isWsC c = false)
    (h : ∃ pre post, s ++ [' '] = pre ++ p ++ post) :
    ∃ pre post, s = pre ++ p ++ post := by
  have h1 := occurs_reverse h
  simp only [List.reverse_append, List.reverse_cons, List.reverse_nil, List.nil_append,
    List.singleton_append] at h1
  have h2 := occurs_peel_front p.reverse s.reverse (by simpa using hne)
    (by rw [List.head?_reverse]; exact hl) h1
  have h3 := occurs_reverse h2
  simp only [List.reverse_reverse] at h3
  exact h3

theorem leadsL_exists : ∀ (a b : List Char), leadsL a b = true → ∃ rest, b = a ++ rest := by
  intro a
  induction a with
  | nil => intro b _; exact ⟨b, rfl⟩
  | cons c a' ih =>
    intro b h
    cases b with
    | nil => simp [leadsL] at h
    | cons d b' =>
      have h2 : c = d ∧ leadsL a' b' = true := by
        have heq : leadsL (c :: a') (d :: b') = ((c == d) && leadsL a' b') := rfl
        rw [heq, Bool.and_eq_true, beq_iff_eq] at h
        exact h
      obtain ⟨rest, hrest⟩ := ih b' h2.2
      cases h2.1
      exact ⟨rest, by rw [hrest]; rfl⟩

theorem inStr_exists : ∀ (b a : List Char), inStr a b = true →
    ∃ pre post, b = pre ++ a ++ post := by
  intro b
  induction b with
  | nil =>
    intro a h
    cases a with
    | nil => exact ⟨[], [], rfl⟩
    | cons c a' => simp [inStr, leadsL] at h
  | cons c b' ih =>
    intro a h
    have h2 : leadsL a (c :: b') = true ∨ inStr a b' = true := by
      have heq : inStr a (c :: b') = (leadsL a (c :: b') || inStr a b') := rfl
      rw [heq, Bool.or_eq_true] at h
      exact h
    rcases h2 with h2 | h2
    · obtain ⟨rest, hrest⟩ := leadsL_exists a (c :: b') h2
      exact ⟨[], rest, by rw [hrest]; simp⟩
    · obtain ⟨pre, post, hp⟩ := ih a h2
      exact ⟨c :: pre, post, by rw [hp]; rfl⟩

/-- Claim C4: for every text `T` and excerpt `E`, if `E` is a substring of
`T` modulo collapsing whitespace runs to a single space (the executable test
`inStr` on the collapsed strings), then `_find_text_positions` applied to
`normalize(T)` and `E` returns at least one match. -/
theorem c4_whitespace_tolerance (T E : List Char)
    (h : inStr (collapseRuns E) (collapseRuns T) = true) :
    find_text_positions (normalize_whitespace T) E ≠ [] := by
  by_cases hE : normalize_whitespace E = []
  · unfold find_text_positions
    rw [hE]
    show scanIter [] 0 0 (normalize_whitespace (normalize_whitespace T)) ≠ []
    rw [scanIter_empty_pattern]
    simp [List.range'_succ]
  · obtain ⟨w1E, w2E, _, _, hsplitE⟩ := collapse_split E
    obtain ⟨w1T, w2T, hw1T, hw2T, hsplitT⟩ := collapse_split T
    obtain ⟨pre0, post0, hocc0⟩ := inStr_exists (collapseRuns T) (collapseRuns E) h
    have hne : normalize_whitespace E ≠ [] := hE
    have hhead : ∀ c ∈ (normalize_whitespace E).head?, isWsC c = false := normalize_head E
    have hlastE : ∀ c ∈ (normalize_whitespace E).getLast?, isWsC c = false := normalize_last E
    obtain ⟨pre1, post1, hocc1⟩ :
        ∃ pre post, collapseRuns T = pre ++ normalize_whitespace E ++ post := by
      refine ⟨pre0 ++ w1E, w2E ++ post0, ?_⟩
      rw [hocc0, hsplitE]
      simp [List.append_assoc]
    rw [hsplitT] at hocc1
    obtain ⟨pre2, post2, hocc2⟩ :
        ∃ pre post, w1T ++ normalize_whitespace T = pre ++ normalize_whitespace E ++ post := by
      rcases hw2T with h2 | h2
      · subst h2
        refine ⟨pre1, post1, ?_⟩
        rw [← hocc1, List.append_nil]
      · subst h2
        exact occurs_peel_back (normalize_whitespace E) (w1T ++ normalize_whitespace T)
          hne hlastE ⟨pre1, post1, hocc1⟩
    obtain ⟨pre3, post3, hocc3⟩ :
        ∃ pre post, normalize_whitespace T = pre ++ normalize_whitespace E ++ post := by
      rcases hw1T with h1 | h1
      · subst h1
        exact ⟨pre2, post2, by simpa using hocc2⟩
      · subst h1
        exact occurs_peel_front (normalize_whitespace E) (normalize_whitespace T)
          hne hhead ⟨pre2, post2, by simpa using hocc2⟩
    unfold find_text_positions
    rw [normalize_whitespace_idem]
    apply scanIter_ne_nil (toksOf (normalize_whitespace E)) (normalize_whitespace T) 0
      pre3.length (normalize_whitespace E).length
    rw [hocc3, List.append_assoc, List.drop_left]
    exact matchToks_self (normalize_whitespace E) post3 (okSpaces_normalize E)

/-- Witness for C4: the excerpt `"pay  within\t30 days"` is a substring of
the clause modulo whitespace collapsing, and at least one match is found. -/
theorem c4_witness :
    find_text_positions (normalize_whitespace "Clients pay  within\t30 days of invoice.".data)
      "pay within 30  days".data ≠ [] :=
  c4_whitespace_tolerance "Clients pay  within\t30 days of invoice.".data
    "pay within 30  days".data (by decide)
